import Mathlib

/-!
Shallow embedding of the math-markup scanner implemented in
`src/servers/nextjs/app/(presentation-generator)/components/LatexTextRenderer.tsx`.

Text content of a DOM text node is modelled as `List Char`.  The two regular
expressions of the source are modelled by executable scanners with the same
semantics (leftmost match, ordered alternation with the block form first,
non-greedy bodies realised as first-closing-delimiter searches).  The DOM is
modelled as a rose tree, replacement of a text node by a document fragment as
a node-to-node-list transformation, and the external `katex.renderToString`
call as an oracle returning `none` when the call throws.
-/

namespace LatexRender

/-- Oracle standing for `katex.renderToString`: given the expression and the
display-mode flag it returns the produced markup, or `none` when the call
throws (the component catches that case). -/
abbrev Renderer := List Char → Bool → Option (List Char)

/-- Character of `s` at index `i` is a dollar sign. -/
def isDollar (s : List Char) (i : Nat) : Bool := decide (s.get? i = some '$')

/-- There are `d` consecutive dollar signs in `s` starting at index `i`. -/
def dollarsAt (s : List Char) (i : Nat) : Nat → Bool
  | 0 => true
  | d + 1 => isDollar s i && dollarsAt s (i + 1) d

/-- Substring of `s` of length `k` starting at index `p`
(the JavaScript `text.slice(p, p + k)`). -/
def slice (s : List Char) (p k : Nat) : List Char := (s.drop p).take k

/-- Test of the fast pre-filter regex `/\${1,2}[\s\S]+?\${1,2}/` (line 41 of
the source) on `s`.  A test only asks whether some match exists, so the
backtracking search is modelled by the existential over all quantifier
choices: a start position `i`, an opening run of `d1 ∈ {1,2}` dollars, a
nonempty body of `k` arbitrary characters inside the string, and a closing
run of `d2 ∈ {1,2}` dollars. -/
def preFilter (s : List Char) : Bool :=
  (List.range s.length).any (fun i =>
    ([1, 2] : List Nat).any (fun d1 =>
      (List.range (s.length + 1)).any (fun k =>
        ([1, 2] : List Nat).any (fun d2 =>
          decide (1 ≤ k) && dollarsAt s i d1 &&
            decide (i + d1 + k ≤ s.length) && dollarsAt s (i + d1 + k) d2))))

/-- First position `c` with `pos ≤ c < pos + fuel` at which two consecutive
dollars start (used for the non-greedy body of the block alternative: the
body extends to the first closing `$$`). -/
def seekDD (s : List Char) : Nat → Nat → Option Nat
  | 0, _ => none
  | fuel + 1, pos => if dollarsAt s pos 2 then some pos else seekDD s fuel (pos + 1)

/-- First position `c` with `pos ≤ c < pos + fuel` holding a dollar (used for
the single-dollar alternative: a `[^$]+?` body extends exactly to the next
dollar). -/
def seekD (s : List Char) : Nat → Nat → Option Nat
  | 0, _ => none
  | fuel + 1, pos => if isDollar s pos then some pos else seekD s fuel (pos + 1)

/-- Attempt of the first regex alternative `\$\$([\s\S]+?)\$\$` at position
`i` of `s` (line 47 of the source): two opening dollars, then a shortest
nonempty body (hence closing at the first `$$` at or after `i + 3`), then two
closing dollars.  Returns the captured body. -/
def tryBlock (s : List Char) (i : Nat) : Option (List Char) :=
  if dollarsAt s i 2 then
    match seekDD s s.length (i + 3) with
    | some c => some (slice s (i + 2) (c - (i + 2)))
    | none => none
  else none

/-- Attempt of the second regex alternative `\$([^$]+?)\$` at position `i` of
`s`: one opening dollar, then a shortest nonempty dollar-free body, which
therefore extends exactly to the next dollar, required to lie at or after
`i + 2`.  Returns the captured body. -/
def tryInline (s : List Char) (i : Nat) : Option (List Char) :=
  if isDollar s i then
    match seekD s s.length (i + 1) with
    | some f => if i + 2 ≤ f then some (slice s (i + 1) (f - (i + 1))) else none
    | none => none
  else none

/-- One match of the extraction regex: start index (`m.index`), captured
expression (`m[1]` or `m[2]`), and whether the block alternative matched. -/
structure MathMatch where
  idx : Nat
  expr : List Char
  isBlock : Bool
deriving DecidableEq

/-- Length of the full match `m[0]`: expression plus four delimiter dollars
for the block form, two for the inline form. -/
def matchLen (m : MathMatch) : Nat := m.expr.length + (if m.isBlock then 4 else 2)

/-- Leftmost match of `/\$\$([\s\S]+?)\$\$|\$([^$]+?)\$/` at a position in
`[i, i + fuel)`: at each candidate position the block alternative is tried
before the inline alternative, as JavaScript ordered alternation does. -/
def findFromAux (s : List Char) : Nat → Nat → Option MathMatch
  | 0, _ => none
  | fuel + 1, i =>
    match tryBlock s i with
    | some b => some ⟨i, b, true⟩
    | none =>
      match tryInline s i with
      | some b => some ⟨i, b, false⟩
      | none => findFromAux s fuel (i + 1)

/-- Leftmost match of the extraction regex at a position `≥ i`
(`regex.exec(text)` with `lastIndex = i`).  Any match starts strictly inside
`s`, so fuel reaching position `s.length` is exhaustive. -/
def findFrom (s : List Char) (i : Nat) : Option MathMatch :=
  findFromAux s (s.length + 1 - i) i

/-- The `while ((m = regex.exec(text)))` loop: collect successive leftmost
matches, resuming after the end of each match.  Every match consumes at least
three characters, so `s.length + 1` rounds of fuel are exhaustive. -/
def matchesFromAux (s : List Char) : Nat → Nat → List MathMatch
  | 0, _ => []
  | fuel + 1, i =>
    match findFrom s i with
    | none => []
    | some m => m :: matchesFromAux s fuel (m.idx + matchLen m)

/-- All matches of the extraction regex on `s`, in left-to-right order. -/
def extractMatches (s : List Char) : List MathMatch :=
  matchesFromAux s (s.length + 1) 0

/-- One piece of the replacement fragment: a literal text node, or the span
built for one match (lines 50-64 of the source). -/
inductive Piece where
  | lit (t : List Char)
  | math (expr : List Char) (isBlock : Bool)
deriving DecidableEq

/-- Delimited source text of a match: `$$expr$$` for the block form,
`$expr$` for the inline form. -/
def matchSrc (e : List Char) (b : Bool) : List Char :=
  if b then '$' :: '$' :: (e ++ ['$', '$']) else '$' :: (e ++ ['$'])

/-- Source characters a fragment piece accounts for: a literal piece accounts
for its own text, a match piece for the matched span including delimiters. -/
def pieceSrc : Piece → List Char
  | Piece.lit t => t
  | Piece.math e b => matchSrc e b

/-- Fragment construction loop (lines 46-68 of the source): for each match
emit the literal gap since the previous end when nonempty (`m.index > last`),
then the match piece, and after the final match the literal tail when
nonempty (`last < text.length`). -/
def fragFrom (s : List Char) : Nat → List MathMatch → List Piece
  | last, [] => if last < s.length then [Piece.lit (slice s last (s.length - last))] else []
  | last, m :: rest =>
    (if last < m.idx then [Piece.lit (slice s last (m.idx - last))] else []) ++
      Piece.math m.expr m.isBlock :: fragFrom s (m.idx + matchLen m) rest

/-- Replacement fragment built for the full text of one node. -/
def fragment (s : List Char) : List Piece := fragFrom s 0 (extractMatches s)

/-- Outcome of the per-node pass for a non-ignored text node with content
`t`: the node is pushed into `targets` exactly when the fast pre-filter test
succeeds (line 41), and every node in `targets` is replaced by its fragment;
`none` means the node is left in place untouched. -/
def processText (t : List Char) : Option (List Piece) :=
  if preFilter t then some (fragment t) else none

/-- Content the span of one match carries: the markup returned by the
renderer, or — when the renderer throws — the original delimited source text
set by the `catch` branch (lines 62-63 of the source). -/
def spanContent (ρ : Renderer) (e : List Char) (b : Bool) : List Char :=
  match ρ e b with
  | some html => html
  | none => matchSrc e b

/-- Class name `tiptap-text-editor` marking the editable region. -/
def tiptapClass : List Char :=
  ['t', 'i', 'p', 't', 'a', 'p', '-', 't', 'e', 'x', 't', '-', 'e', 'd', 'i', 't', 'o', 'r']

/-- Attribute value `true`. -/
def trueLit : List Char := ['t', 'r', 'u', 'e']

/-- Tag name `SCRIPT`. -/
def scriptTag : List Char := ['S', 'C', 'R', 'I', 'P', 'T']

/-- Tag name `STYLE`. -/
def styleTag : List Char := ['S', 'T', 'Y', 'L', 'E']

/-- Tag name `SPAN`. -/
def spanTag : List Char := ['S', 'P', 'A', 'N']

/-- Observable element data the ignore predicate inspects: tag name, class
list, and the `contenteditable` attribute value when present. -/
structure ElemInfo where
  tag : List Char
  classes : List (List Char)
  contenteditable : Option (List Char)

/-- Conditions of `shouldIgnore` (lines 20-25 of the source) evaluated on a
single element: carries the editor marker class, or has
`contenteditable="true"`, or is a `SCRIPT` or `STYLE` element.  The source
predicate walks the ancestor chain and ignores the node when some
ancestor-or-self element satisfies this. -/
def shouldIgnoreElem (e : ElemInfo) : Bool :=
  decide (tiptapClass ∈ e.classes) || decide (e.contenteditable = some trueLit) ||
    decide (e.tag = scriptTag) || decide (e.tag = styleTag)

mutual
/-- DOM node: a text node with its character data, or an element with its
inspectable data and children. -/
inductive Dom where
  | text (content : List Char) : Dom
  | elem (info : ElemInfo) (children : DomList) : Dom
/-- Sibling list of DOM nodes. -/
inductive DomList where
  | nil : DomList
  | cons (hd : Dom) (tl : DomList) : DomList
end

/-- Concatenation of sibling lists. -/
def DomList.append : DomList → DomList → DomList
  | DomList.nil, ys => ys
  | DomList.cons x xs, ys => DomList.cons x (DomList.append xs ys)

/-- Element data of the `span` created for a match
(`document.createElement("span")`). -/
def spanInfo : ElemInfo := ⟨spanTag, [], none⟩

/-- DOM node built for one fragment piece: a text node for a literal piece,
and for a match piece a span whose flattened content is the rendered markup
or the literal fallback. -/
def pieceToDom (ρ : Renderer) : Piece → Dom
  | Piece.lit t => Dom.text t
  | Piece.math e b => Dom.elem spanInfo (DomList.cons (Dom.text (spanContent ρ e b)) DomList.nil)

/-- Sibling list of the document fragment built from the pieces. -/
def piecesToDomList (ρ : Renderer) : List Piece → DomList
  | [] => DomList.nil
  | p :: ps => DomList.cons (pieceToDom ρ p) (piecesToDomList ρ ps)

mutual
/-- Effect of `renderLatexInTextNodes` on one node, given whether some
ancestor of the node already satisfies the ignore predicate: a text node is
left alone when ignored or when the pre-filter rejects it, and is otherwise
replaced in its parent by the fragment's sibling list; an element keeps its
place and has its descendant text nodes processed, with the ignore flag
extended by its own ignore conditions.  Collecting all targets first and
replacing afterwards, as the source does, yields the same tree. -/
def renderNode (ρ : Renderer) (ign : Bool) : Dom → DomList
  | Dom.text t =>
    if ign then DomList.cons (Dom.text t) DomList.nil
    else
      match processText t with
      | some ps => piecesToDomList ρ ps
      | none => DomList.cons (Dom.text t) DomList.nil
  | Dom.elem e cs =>
    DomList.cons (Dom.elem e (renderChildren ρ (ign || shouldIgnoreElem e) cs)) DomList.nil
/-- Effect of the scan on a sibling list, in document order. -/
def renderChildren (ρ : Renderer) (ign : Bool) : DomList → DomList
  | DomList.nil => DomList.nil
  | DomList.cons c rest => DomList.append (renderNode ρ ign c) (renderChildren ρ ign rest)
end

/-- Handling of one node of `mu.addedNodes` by the mutation-observer callback
(lines 80-85 of the source): an element node is rescanned by
`renderLatexInTextNodes` rooted at that node; any other inserted node is not
processed. -/
def processAdded (ρ : Renderer) (ign : Bool) : Dom → DomList
  | Dom.elem e cs => renderNode ρ ign (Dom.elem e cs)
  | Dom.text t => DomList.cons (Dom.text t) DomList.nil

/-- Handling of a delivered batch list: mutation records in delivery order,
and inside each record the added nodes in batch order. -/
def handleMutations (ρ : Renderer) (ign : Bool) (muts : List (List Dom)) : List (List DomList) :=
  muts.map (fun batch => batch.map (processAdded ρ ign))

/-- A text node selected for replacement, together with whether its parent is
still present at replacement time (`textNode.parentNode` non-null). -/
structure TargetNode where
  content : List Char
  attached : Bool
deriving DecidableEq

/-- Action the replacement step performs on one target. -/
inductive NodeAction where
  | replaced (frag : DomList) : NodeAction
  | skipped : NodeAction

/-- Replacement step for one collected target (lines 69-73 of the source):
when the parent is present the fragment is inserted and the node removed;
when it is absent nothing is done for that node. -/
def replaceAction (ρ : Renderer) (t : TargetNode) : NodeAction :=
  if t.attached then NodeAction.replaced (piecesToDomList ρ (fragment t.content))
  else NodeAction.skipped

/-- The `for (const textNode of targets)` replacement loop over the collected
targets, in collection order. -/
def replaceLoop (ρ : Renderer) (ts : List TargetNode) : List NodeAction :=
  ts.map (replaceAction ρ)

/-- Well-formedness of one produced match with respect to the scanned text:
nonempty captured expression, match span inside the text, and the matched
span of the text being exactly the delimited expression. -/
def MatchOK (s : List Char) (m : MathMatch) : Prop :=
  m.expr ≠ [] ∧ m.idx + matchLen m ≤ s.length ∧
    slice s m.idx (matchLen m) = matchSrc m.expr m.isBlock

/-- The match list is ascending and well formed, starting at or after
position `i`. -/
def ChainFrom (s : List Char) : Nat → List MathMatch → Prop
  | _, [] => True
  | i, m :: rest => i ≤ m.idx ∧ MatchOK s m ∧ ChainFrom s (m.idx + matchLen m) rest

end LatexRender

namespace LatexRender

theorem isDollar_iff {s : List Char} {i : Nat} : isDollar s i = true ↔ s.get? i = some '$' := by
  simp [isDollar]

theorem isDollar_false_iff {s : List Char} {i : Nat} :
    isDollar s i = false ↔ s.get? i ≠ some '$' := by
  simp [isDollar]

theorem get?_lt_length {s : List Char} {i : Nat} {c : Char} (h : s.get? i = some c) :
    i < s.length := by
  rcases List.get?_eq_some.mp h with ⟨h1, _⟩
  exact h1

theorem isDollar_lt {s : List Char} {i : Nat} (h : isDollar s i = true) : i < s.length :=
  get?_lt_length (isDollar_iff.mp h)

theorem isDollar_ge_false {s : List Char} {i : Nat} (h : s.length ≤ i) : isDollar s i = false := by
  unfold isDollar
  rw [List.get?_eq_none.mpr h]
  rfl

theorem dollarsAt_one {s : List Char} {i : Nat} : dollarsAt s i 1 = isDollar s i := by
  show (isDollar s i && dollarsAt s (i + 1) 0) = isDollar s i
  show (isDollar s i && true) = isDollar s i
  exact Bool.and_true _

theorem dollarsAt_two {s : List Char} {i : Nat} :
    dollarsAt s i 2 = (isDollar s i && isDollar s (i + 1)) := by
  show (isDollar s i && dollarsAt s (i + 1) 1) = _
  rw [dollarsAt_one]

theorem dollarsAt_two_false_left {s : List Char} {i : Nat} (h : isDollar s i = false) :
    dollarsAt s i 2 = false := by
  rw [dollarsAt_two, h, Bool.false_and]

theorem seekDD_some {s : List Char} {fuel pos c : Nat} (h : seekDD s fuel pos = some c) :
    pos ≤ c ∧ dollarsAt s c 2 = true := by
  induction fuel generalizing pos with
  | zero => simp [seekDD] at h
  | succ fuel ih =>
    rw [seekDD] at h
    by_cases hd : dollarsAt s pos 2 = true
    · rw [if_pos hd] at h
      injection h with h
      subst h
      exact ⟨Nat.le_refl _, hd⟩
    · rw [if_neg hd] at h
      rcases ih h with ⟨h1, h2⟩
      exact ⟨by omega, h2⟩

theorem seekDD_eq_some {s : List Char} {fuel pos c : Nat} (h1 : pos ≤ c) (h2 : c < pos + fuel)
    (h3 : dollarsAt s c 2 = true) (hmin : ∀ j, pos ≤ j → j < c → dollarsAt s j 2 = false) :
    seekDD s fuel pos = some c := by
  induction fuel generalizing pos with
  | zero => omega
  | succ fuel ih =>
    rcases Nat.eq_or_lt_of_le h1 with rfl | hlt
    · rw [seekDD, if_pos h3]
    · rw [seekDD, if_neg (by simp [hmin pos (Nat.le_refl _) hlt])]
      exact ih (by omega) (by omega) (fun j hj1 hj2 => hmin j (by omega) hj2)

theorem seekDD_eq_none {s : List Char} {fuel pos : Nat}
    (h : ∀ j, pos ≤ j → dollarsAt s j 2 = false) : seekDD s fuel pos = none := by
  induction fuel generalizing pos with
  | zero => rfl
  | succ fuel ih =>
    rw [seekDD, if_neg (by simp [h pos (Nat.le_refl _)])]
    exact ih (fun j hj => h j (by omega))

theorem seekD_some {s : List Char} {fuel pos c : Nat} (h : seekD s fuel pos = some c) :
    pos ≤ c ∧ isDollar s c = true := by
  induction fuel generalizing pos with
  | zero => simp [seekD] at h
  | succ fuel ih =>
    rw [seekD] at h
    by_cases hd : isDollar s pos = true
    · rw [if_pos hd] at h
      injection h with h
      subst h
      exact ⟨Nat.le_refl _, hd⟩
    · rw [if_neg hd] at h
      rcases ih h with ⟨h1, h2⟩
      exact ⟨by omega, h2⟩

theorem seekD_eq_some {s : List Char} {fuel pos c : Nat} (h1 : pos ≤ c) (h2 : c < pos + fuel)
    (h3 : isDollar s c = true) (hmin : ∀ j, pos ≤ j → j < c → isDollar s j = false) :
    seekD s fuel pos = some c := by
  induction fuel generalizing pos with
  | zero => omega
  | succ fuel ih =>
    rcases Nat.eq_or_lt_of_le h1 with rfl | hlt
    · rw [seekD, if_pos h3]
    · rw [seekD, if_neg (by simp [hmin pos (Nat.le_refl _) hlt])]
      exact ih (by omega) (by omega) (fun j hj1 hj2 => hmin j (by omega) hj2)

theorem seekD_eq_none {s : List Char} {fuel pos : Nat}
    (h : ∀ j, pos ≤ j → isDollar s j = false) : seekD s fuel pos = none := by
  induction fuel generalizing pos with
  | zero => rfl
  | succ fuel ih =>
    rw [seekD, if_neg (by simp [h pos (Nat.le_refl _)])]
    exact ih (fun j hj => h j (by omega))

theorem slice_length {s : List Char} {p k : Nat} :
    (slice s p k).length = min k (s.length - p) := by
  simp [slice]

theorem get?_slice {s : List Char} {p k j : Nat} (h : j < k) :
    (slice s p k).get? j = s.get? (p + j) := by
  rw [List.get?_eq_getElem?, List.get?_eq_getElem?, slice, List.getElem?_take_of_lt h,
    List.getElem?_drop]

theorem drop_eq_cons_of_get? {s : List Char} {i : Nat} {c : Char} (h : s.get? i = some c) :
    s.drop i = c :: s.drop (i + 1) := by
  rcases List.get?_eq_some.mp h with ⟨hlt, hget⟩
  rw [List.drop_eq_get_cons hlt, hget]

theorem take_one_more {t : List Char} {k : Nat} (h1 : t.get? k = some '$') :
    t.take (k + 1) = t.take k ++ ['$'] := by
  rw [List.take_succ, ← List.get?_eq_getElem?, h1]
  rfl

theorem take_two_more {t : List Char} {k : Nat} (h1 : t.get? k = some '$')
    (h2 : t.get? (k + 1) = some '$') : t.take (k + 2) = t.take k ++ ['$', '$'] := by
  rw [show k + 2 = (k + 1) + 1 from rfl, take_one_more h2, take_one_more h1, List.append_assoc]
  rfl

end LatexRender

namespace LatexRender

theorem tryBlock_none_of_not_dollar {s : List Char} {i : Nat} (h : isDollar s i = false) :
    tryBlock s i = none := by
  rw [tryBlock, if_neg (by simp [dollarsAt_two_false_left h])]

theorem tryInline_none_of_not_dollar {s : List Char} {i : Nat} (h : isDollar s i = false) :
    tryInline s i = none := by
  rw [tryInline, if_neg (by simp [h])]

theorem tryBlock_ok {s : List Char} {i : Nat} {b : List Char} (h : tryBlock s i = some b) :
    b ≠ [] ∧ i + (b.length + 4) ≤ s.length ∧ slice s i (b.length + 4) = matchSrc b true := by
  rw [tryBlock] at h
  by_cases hd : dollarsAt s i 2 = true
  · rw [if_pos hd] at h
    cases hc : seekDD s s.length (i + 3) with
    | none => rw [hc] at h; cases h
    | some c =>
      rw [hc] at h
      injection h with hb
      rcases seekDD_some hc with ⟨hge, hcd⟩
      rw [dollarsAt_two] at hd hcd
      have hdi : s.get? i = some '$' := isDollar_iff.mp (Bool.and_elim_left hd)
      have hdi1 : s.get? (i + 1) = some '$' := isDollar_iff.mp (Bool.and_elim_right hd)
      have hdc : s.get? c = some '$' := isDollar_iff.mp (Bool.and_elim_left hcd)
      have hdc1 : s.get? (c + 1) = some '$' := isDollar_iff.mp (Bool.and_elim_right hcd)
      have hclen : c + 1 < s.length := get?_lt_length hdc1
      have hblen : b.length = c - (i + 2) := by
        rw [← hb, slice_length]; omega
      refine ⟨?_, by omega, ?_⟩
      · apply List.ne_nil_of_length_pos
        omega
      · have hdropi : s.drop i = '$' :: '$' :: s.drop (i + 2) := by
          rw [drop_eq_cons_of_get? hdi, drop_eq_cons_of_get? hdi1]
        have hk4 : b.length + 4 = (c - (i + 2)) + 2 + 2 := by omega
        have htk : (s.drop (i + 2)).take ((c - (i + 2)) + 2) =
            (s.drop (i + 2)).take (c - (i + 2)) ++ ['$', '$'] := by
          apply take_two_more
          · rw [List.get?_drop]
            rw [show i + 2 + (c - (i + 2)) = c from by omega]
            exact hdc
          · rw [List.get?_drop]
            rw [show i + 2 + ((c - (i + 2)) + 1) = c + 1 from by omega]
            exact hdc1
        show (s.drop i).take (b.length + 4) = _
        rw [hdropi, hk4]
        rw [show (c - (i + 2)) + 2 + 2 = ((c - (i + 2)) + 2) + 1 + 1 from rfl]
        rw [List.take_succ_cons, List.take_succ_cons, htk]
        rw [← hb]
        simp [matchSrc, slice]
  · rw [if_neg hd] at h
    cases h

theorem tryInline_ok {s : List Char} {i : Nat} {b : List Char} (h : tryInline s i = some b) :
    b ≠ [] ∧ i + (b.length + 2) ≤ s.length ∧ slice s i (b.length + 2) = matchSrc b false := by
  rw [tryInline] at h
  by_cases hd : isDollar s i = true
  · rw [if_pos hd] at h
    cases hc : seekD s s.length (i + 1) with
    | none => rw [hc] at h; cases h
    | some f =>
      rw [hc] at h
      replace h : (if i + 2 ≤ f then some (slice s (i + 1) (f - (i + 1))) else none) = some b := h
      by_cases hf : i + 2 ≤ f
      · rw [if_pos hf] at h
        injection h with hb
        rcases seekD_some hc with ⟨hge, hfd⟩
        have hdi : s.get? i = some '$' := isDollar_iff.mp hd
        have hdf : s.get? f = some '$' := isDollar_iff.mp hfd
        have hflen : f < s.length := get?_lt_length hdf
        have hblen : b.length = f - (i + 1) := by
          rw [← hb, slice_length]; omega
        refine ⟨?_, by omega, ?_⟩
        · apply List.ne_nil_of_length_pos
          omega
        · have hdropi : s.drop i = '$' :: s.drop (i + 1) := drop_eq_cons_of_get? hdi
          have htk : (s.drop (i + 1)).take ((f - (i + 1)) + 1) =
              (s.drop (i + 1)).take (f - (i + 1)) ++ ['$'] := by
            apply take_one_more
            rw [List.get?_drop]
            rw [show i + 1 + (f - (i + 1)) = f from by omega]
            exact hdf
          show (s.drop i).take (b.length + 2) = _
          rw [hdropi]
          rw [show b.length + 2 = (b.length + 1) + 1 from rfl, List.take_succ_cons]
          rw [hblen, htk, ← hb]
          simp [matchSrc, slice]
      · rw [if_neg hf] at h
        cases h
  · rw [if_neg hd] at h
    cases h

end LatexRender

namespace LatexRender

theorem matchOK_block {s : List Char} {i : Nat} {b : List Char} (hb : tryBlock s i = some b) :
    MatchOK s ⟨i, b, true⟩ := by
  rcases tryBlock_ok hb with ⟨h1, h2, h3⟩
  unfold MatchOK
  simp only [matchLen]
  exact ⟨h1, by simpa using h2, by simpa using h3⟩

theorem matchOK_inline {s : List Char} {i : Nat} {b : List Char} (hb : tryInline s i = some b) :
    MatchOK s ⟨i, b, false⟩ := by
  rcases tryInline_ok hb with ⟨h1, h2, h3⟩
  unfold MatchOK
  simp only [matchLen]
  exact ⟨h1, by simpa using h2, by simpa using h3⟩

theorem findFrom_eq_block {s : List Char} {i : Nat} {b : List Char}
    (hb : tryBlock s i = some b) : findFrom s i = some ⟨i, b, true⟩ := by
  have hi : i < s.length := by
    have h2 := (tryBlock_ok hb).2.1
    omega
  rw [findFrom, show s.length + 1 - i = (s.length - i) + 1 from by omega, findFromAux, hb]

theorem findFrom_eq_inline {s : List Char} {i : Nat} {b : List Char}
    (hb : tryBlock s i = none) (hi : tryInline s i = some b) :
    findFrom s i = some ⟨i, b, false⟩ := by
  have hlt : i < s.length := by
    have h2 := (tryInline_ok hi).2.1
    omega
  rw [findFrom, show s.length + 1 - i = (s.length - i) + 1 from by omega, findFromAux, hb, hi]

theorem findFrom_eq_next {s : List Char} {i : Nat}
    (hb : tryBlock s i = none) (hi : tryInline s i = none) :
    findFrom s i = findFrom s (i + 1) := by
  rcases le_or_lt i s.length with hle | hlt
  · rw [findFrom, show s.length + 1 - i = (s.length - i) + 1 from by omega, findFromAux, hb, hi,
      findFrom, show s.length + 1 - (i + 1) = s.length - i from by omega]
  · rw [findFrom, findFrom, show s.length + 1 - i = 0 from by omega,
      show s.length + 1 - (i + 1) = 0 from by omega]
    rfl

theorem findFrom_none_of_ge {s : List Char} {i : Nat} (h : s.length ≤ i) :
    findFrom s i = none := by
  rcases Nat.eq_or_lt_of_le h with heq | hlt
  · have hb := tryBlock_none_of_not_dollar (isDollar_ge_false h)
    have hi := tryInline_none_of_not_dollar (isDollar_ge_false h)
    rw [findFrom, show s.length + 1 - i = 1 from by omega, findFromAux, hb, hi]
    rfl
  · rw [findFrom, show s.length + 1 - i = 0 from by omega]
    rfl

theorem findFrom_skip {s : List Char} {i : Nat} (h : isDollar s i = false) :
    findFrom s i = findFrom s (i + 1) :=
  findFrom_eq_next (tryBlock_none_of_not_dollar h) (tryInline_none_of_not_dollar h)

theorem findFrom_congr {s : List Char} (d : Nat) :
    ∀ i, (∀ j, i ≤ j → j < i + d → isDollar s j = false) → findFrom s i = findFrom s (i + d) := by
  induction d with
  | zero => intro i _; rfl
  | succ d ih =>
    intro i h
    rw [findFrom_skip (h i (Nat.le_refl _) (by omega))]
    rw [ih (i + 1) (fun j hj1 hj2 => h j (by omega) (by omega))]
    rw [show i + 1 + d = i + (d + 1) from by omega]

theorem findFrom_none_of_no_dollar {s : List Char} {i : Nat}
    (h : ∀ j, i ≤ j → isDollar s j = false) : findFrom s i = none := by
  rcases le_or_lt i s.length with hle | hlt
  · rw [findFrom_congr (s.length - i) i (fun j hj1 _ => h j hj1),
      show i + (s.length - i) = s.length from by omega]
    exact findFrom_none_of_ge (Nat.le_refl _)
  · exact findFrom_none_of_ge (by omega)

theorem findFromAux_some {s : List Char} {fuel : Nat} :
    ∀ {i : Nat} {m : MathMatch}, findFromAux s fuel i = some m → i ≤ m.idx ∧ MatchOK s m := by
  induction fuel with
  | zero => intro i m h; cases h
  | succ fuel ih =>
    intro i m h
    rw [findFromAux] at h
    cases hb : tryBlock s i with
    | some b =>
      rw [hb] at h
      replace h : some (⟨i, b, true⟩ : MathMatch) = some m := h
      injection h with h
      subst h
      exact ⟨Nat.le_refl _, matchOK_block hb⟩
    | none =>
      rw [hb] at h
      replace h : (match tryInline s i with
        | some b => some (⟨i, b, false⟩ : MathMatch)
        | none => findFromAux s fuel (i + 1)) = some m := h
      cases hi : tryInline s i with
      | some b =>
        rw [hi] at h
        replace h : some (⟨i, b, false⟩ : MathMatch) = some m := h
        injection h with h
        subst h
        exact ⟨Nat.le_refl _, matchOK_inline hi⟩
      | none =>
        rw [hi] at h
        replace h : findFromAux s fuel (i + 1) = some m := h
        rcases ih h with ⟨h1, h2⟩
        exact ⟨by omega, h2⟩

theorem findFrom_some {s : List Char} {i : Nat} {m : MathMatch} (h : findFrom s i = some m) :
    i ≤ m.idx ∧ MatchOK s m :=
  findFromAux_some h

theorem chain_matchesFromAux {s : List Char} (fuel : Nat) :
    ∀ i, ChainFrom s i (matchesFromAux s fuel i) := by
  induction fuel with
  | zero => intro i; exact trivial
  | succ fuel ih =>
    intro i
    cases hf : findFrom s i with
    | none =>
      rw [matchesFromAux, hf]
      exact trivial
    | some m =>
      rw [matchesFromAux, hf]
      show i ≤ m.idx ∧ MatchOK s m ∧
        ChainFrom s (m.idx + matchLen m) (matchesFromAux s fuel (m.idx + matchLen m))
      rcases findFrom_some hf with ⟨h1, h2⟩
      exact ⟨h1, h2, ih _⟩

theorem chain_extract (s : List Char) : ChainFrom s 0 (extractMatches s) :=
  chain_matchesFromAux (s.length + 1) 0

theorem chain_mem {s : List Char} {m : MathMatch} :
    ∀ (ms : List MathMatch) (i : Nat), ChainFrom s i ms → m ∈ ms → MatchOK s m := by
  intro ms
  induction ms with
  | nil => intro i _ hm; cases hm
  | cons a rest ih =>
    intro i h hm
    replace h : i ≤ a.idx ∧ MatchOK s a ∧ ChainFrom s (a.idx + matchLen a) rest := h
    rcases List.mem_cons.mp hm with rfl | hm2
    · exact h.2.1
    · exact ih _ h.2.2 hm2

theorem extract_mem_ok {s : List Char} {m : MathMatch} (hm : m ∈ extractMatches s) :
    MatchOK s m :=
  chain_mem _ 0 (chain_extract s) hm

end LatexRender

namespace LatexRender

theorem get?_append_right' (a b : List Char) (j : Nat) :
    (a ++ b).get? (a.length + j) = b.get? j := by
  rw [List.get?_append_right (by omega)]
  congr 1
  omega

theorem fragFrom_src_join {s : List Char} :
    ∀ (ms : List MathMatch) (last : Nat), ChainFrom s last ms →
      ((fragFrom s last ms).map pieceSrc).flatten = s.drop last := by
  intro ms
  induction ms with
  | nil =>
    intro last _
    rw [fragFrom]
    by_cases hl : last < s.length
    · rw [if_pos hl]
      simp only [List.map_cons, List.map_nil, List.flatten_cons, List.flatten_nil,
        List.append_nil, pieceSrc, slice]
      rw [List.take_of_length_le (by rw [List.length_drop])]
    · rw [if_neg hl]
      simp only [List.map_nil, List.flatten_nil]
      rw [List.drop_eq_nil_of_le (by omega)]
  | cons m rest ih =>
    intro last h
    replace h : last ≤ m.idx ∧ MatchOK s m ∧ ChainFrom s (m.idx + matchLen m) rest := h
    rcases h with ⟨hle, hok, hch⟩
    replace hok : m.expr ≠ [] ∧ m.idx + matchLen m ≤ s.length ∧
        slice s m.idx (matchLen m) = matchSrc m.expr m.isBlock := hok
    rcases hok with ⟨hne, hbound, hslice⟩
    have hmdrop : s.drop m.idx = matchSrc m.expr m.isBlock ++ s.drop (m.idx + matchLen m) := by
      have h1 := (List.take_append_drop (matchLen m) (s.drop m.idx)).symm
      rw [List.drop_drop] at h1
      rw [show (s.drop m.idx).take (matchLen m) = matchSrc m.expr m.isBlock from hslice] at h1
      exact h1
    have hidrop : s.drop last = slice s last (m.idx - last) ++ s.drop m.idx := by
      have h1 := (List.take_append_drop (m.idx - last) (s.drop last)).symm
      rw [List.drop_drop, show last + (m.idx - last) = m.idx from by omega] at h1
      exact h1
    rw [fragFrom, List.map_append, List.flatten_append, List.map_cons, List.flatten_cons]
    rw [ih _ hch]
    by_cases hg : last < m.idx
    · rw [if_pos hg]
      simp only [List.map_cons, List.map_nil, List.flatten_cons, List.flatten_nil,
        List.append_nil, pieceSrc]
      rw [hidrop, hmdrop]
    · rw [if_neg hg]
      have hlast : last = m.idx := by omega
      subst hlast
      simp only [List.map_nil, List.flatten_nil, List.nil_append, pieceSrc]
      rw [hmdrop]

theorem fragFrom_math_mem {s : List Char} {e : List Char} {b : Bool} :
    ∀ (ms : List MathMatch) (last : Nat), Piece.math e b ∈ fragFrom s last ms →
      ∃ m ∈ ms, m.expr = e ∧ m.isBlock = b := by
  intro ms
  induction ms with
  | nil =>
    intro last h
    rw [fragFrom] at h
    by_cases hl : last < s.length
    · rw [if_pos hl] at h
      simp at h
    · rw [if_neg hl] at h
      cases h
  | cons m rest ih =>
    intro last h
    rw [fragFrom] at h
    rcases List.mem_append.mp h with h1 | h2
    · by_cases hg : last < m.idx
      · rw [if_pos hg] at h1
        simp at h1
      · rw [if_neg hg] at h1
        cases h1
    · rcases List.mem_cons.mp h2 with heq | h3
      · injection heq with he hb
        exact ⟨m, List.mem_cons_self _ _, he.symm, hb.symm⟩
      · rcases ih _ h3 with ⟨m2, hm2, he, hb2⟩
        exact ⟨m2, List.mem_cons_of_mem _ hm2, he, hb2⟩

theorem preFilter_intro {s : List Char} (i d1 k d2 : Nat)
    (hd1 : d1 = 1 ∨ d1 = 2) (hd2 : d2 = 1 ∨ d2 = 2) (hk : 1 ≤ k)
    (hbound : i + d1 + k ≤ s.length)
    (h1 : dollarsAt s i d1 = true) (h2 : dollarsAt s (i + d1 + k) d2 = true) :
    preFilter s = true := by
  have hi : i < s.length := by
    have hdol : isDollar s i = true := by
      rcases hd1 with rfl | rfl
      · rwa [dollarsAt_one] at h1
      · rw [dollarsAt_two] at h1
        exact Bool.and_elim_left h1
    exact isDollar_lt hdol
  unfold preFilter
  apply List.any_eq_true.mpr
  refine ⟨i, List.mem_range.mpr hi, ?_⟩
  apply List.any_eq_true.mpr
  refine ⟨d1, by rcases hd1 with rfl | rfl <;> simp, ?_⟩
  apply List.any_eq_true.mpr
  refine ⟨k, List.mem_range.mpr (by omega), ?_⟩
  apply List.any_eq_true.mpr
  refine ⟨d2, by rcases hd2 with rfl | rfl <;> simp, ?_⟩
  simp [hk, h1, hbound, h2]

theorem preFilter_elim {s : List Char} (h : preFilter s = true) :
    ∃ i j, i < j ∧ isDollar s i = true ∧ isDollar s j = true := by
  unfold preFilter at h
  rcases List.any_eq_true.mp h with ⟨i, _, h2⟩
  rcases List.any_eq_true.mp h2 with ⟨d1, hd1, h3⟩
  rcases List.any_eq_true.mp h3 with ⟨k, _, h4⟩
  rcases List.any_eq_true.mp h4 with ⟨d2, hd2, h5⟩
  have hd1' : d1 = 1 ∨ d1 = 2 := by simpa using hd1
  have hd2' : d2 = 1 ∨ d2 = 2 := by simpa using hd2
  rw [Bool.and_eq_true, Bool.and_eq_true, Bool.and_eq_true] at h5
  obtain ⟨⟨⟨hk1, hda1⟩, _⟩, hda2⟩ := h5
  have hk1' : 1 ≤ k := of_decide_eq_true hk1
  have hfst : isDollar s i = true := by
    rcases hd1' with rfl | rfl
    · rwa [dollarsAt_one] at hda1
    · rw [dollarsAt_two, Bool.and_eq_true] at hda1
      exact hda1.1
  have hsnd : isDollar s (i + d1 + k) = true := by
    rcases hd2' with rfl | rfl
    · rwa [dollarsAt_one] at hda2
    · rw [dollarsAt_two, Bool.and_eq_true] at hda2
      exact hda2.1
  exact ⟨i, i + d1 + k, by omega, hfst, hsnd⟩

theorem preFilter_pos_length {s : List Char} (h : preFilter s = true) : 0 < s.length := by
  rcases preFilter_elim h with ⟨i, _, _, h1, _⟩
  have := isDollar_lt h1
  omega

theorem count_two_dollars {s : List Char} {i j : Nat} (hij : i < j)
    (hi : s.get? i = some '$') (hj : s.get? j = some '$') : 2 ≤ s.count '$' := by
  have h1 : '$' ∈ s.take j := by
    apply List.get?_mem (n := i)
    rw [List.get?_take hij]
    exact hi
  have h2 : '$' ∈ s.drop j := by
    apply List.get?_mem (n := 0)
    rw [List.get?_drop]
    simpa using hj
  have c1 : 0 < (s.take j).count '$' := List.count_pos_iff.mpr h1
  have c2 : 0 < (s.drop j).count '$' := List.count_pos_iff.mpr h2
  have hsum : s.count '$' = (s.take j).count '$' + (s.drop j).count '$' := by
    rw [← List.count_append, List.take_append_drop]
  omega

theorem matchOK_two_dollars {s : List Char} {m : MathMatch} (h : MatchOK s m) :
    ∃ i j, i < j ∧ s.get? i = some '$' ∧ s.get? j = some '$' := by
  replace h : m.expr ≠ [] ∧ m.idx + matchLen m ≤ s.length ∧
      slice s m.idx (matchLen m) = matchSrc m.expr m.isBlock := h
  rcases h with ⟨hne, hbound, hslice⟩
  have hE : 1 ≤ m.expr.length := List.length_pos.mpr hne
  cases hb : m.isBlock
  case true =>
    have hL : matchLen m = m.expr.length + 4 := by simp [matchLen, hb]
    rw [hL] at hbound hslice
    rw [hb] at hslice
    refine ⟨m.idx, m.idx + 1, by omega, ?_, ?_⟩
    · have h0 : (slice s m.idx (m.expr.length + 4)).get? 0 = s.get? (m.idx + 0) :=
        get?_slice (by omega)
      rw [hslice] at h0
      have hval : s.get? (m.idx + 0) = some '$' := by rw [← h0]; rfl
      simpa using hval
    · have h1 : (slice s m.idx (m.expr.length + 4)).get? 1 = s.get? (m.idx + 1) :=
        get?_slice (by omega)
      rw [hslice] at h1
      rw [← h1]
      rfl
  case false =>
    have hL : matchLen m = m.expr.length + 2 := by simp [matchLen, hb]
    rw [hL] at hbound hslice
    rw [hb] at hslice
    refine ⟨m.idx, m.idx + (m.expr.length + 1), by omega, ?_, ?_⟩
    · have h0 : (slice s m.idx (m.expr.length + 2)).get? 0 = s.get? (m.idx + 0) :=
        get?_slice (by omega)
      rw [hslice] at h0
      have hval : s.get? (m.idx + 0) = some '$' := by rw [← h0]; rfl
      simpa using hval
    · have h1 : (slice s m.idx (m.expr.length + 2)).get? (m.expr.length + 1) =
        s.get? (m.idx + (m.expr.length + 1)) := get?_slice (by omega)
      rw [hslice] at h1
      rw [← h1]
      show ('$' :: (m.expr ++ ['$'])).get? (m.expr.length + 1) = some '$'
      rw [List.get?_cons_succ]
      have := get?_append_right' m.expr ['$'] 0
      simpa using this

theorem preFilter_of_matchOK {s : List Char} {m : MathMatch} (h : MatchOK s m) :
    preFilter s = true := by
  replace h : m.expr ≠ [] ∧ m.idx + matchLen m ≤ s.length ∧
      slice s m.idx (matchLen m) = matchSrc m.expr m.isBlock := h
  rcases h with ⟨hne, hbound, hslice⟩
  have hE : 1 ≤ m.expr.length := List.length_pos.mpr hne
  cases hb : m.isBlock
  case true =>
    have hL : matchLen m = m.expr.length + 4 := by simp [matchLen, hb]
    rw [hL] at hbound hslice
    rw [hb] at hslice
    have hg : ∀ j, j < m.expr.length + 4 →
        s.get? (m.idx + j) = (matchSrc m.expr true).get? j := by
      intro j hj
      rw [← get?_slice hj, hslice]
    have g0 : s.get? m.idx = some '$' := by
      have hh := hg 0 (by omega)
      rw [Nat.add_zero] at hh
      rw [hh]
      rfl
    have g1 : s.get? (m.idx + 1) = some '$' := by
      have hh := hg 1 (by omega)
      rw [hh]
      rfl
    have g2 : s.get? (m.idx + 2 + m.expr.length) = some '$' := by
      have hh := hg (m.expr.length + 1 + 1) (by omega)
      have h2 : (matchSrc m.expr true).get? (m.expr.length + 1 + 1) =
          (m.expr ++ ['$', '$']).get? m.expr.length := by
        show ('$' :: '$' :: (m.expr ++ ['$', '$'])).get? (m.expr.length + 1 + 1) = _
        rw [List.get?_cons_succ, List.get?_cons_succ]
      have h3 : (m.expr ++ ['$', '$']).get? m.expr.length = some '$' := by
        have := get?_append_right' m.expr ['$', '$'] 0
        simpa using this
      rw [h2, h3] at hh
      rw [show m.idx + 2 + m.expr.length = m.idx + (m.expr.length + 1 + 1) from by omega]
      exact hh
    have g3 : s.get? (m.idx + 2 + m.expr.length + 1) = some '$' := by
      have hh := hg (m.expr.length + 1 + 1 + 1) (by omega)
      have h2 : (matchSrc m.expr true).get? (m.expr.length + 1 + 1 + 1) =
          (m.expr ++ ['$', '$']).get? (m.expr.length + 1) := by
        show ('$' :: '$' :: (m.expr ++ ['$', '$'])).get? (m.expr.length + 1 + 1 + 1) = _
        rw [List.get?_cons_succ, List.get?_cons_succ]
      have h3 : (m.expr ++ ['$', '$']).get? (m.expr.length + 1) = some '$' := by
        have := get?_append_right' m.expr ['$', '$'] 1
        simpa using this
      rw [h2, h3] at hh
      rw [show m.idx + 2 + m.expr.length + 1 = m.idx + (m.expr.length + 1 + 1 + 1) from by omega]
      exact hh
    apply preFilter_intro m.idx 2 m.expr.length 2 (Or.inr rfl) (Or.inr rfl) hE (by omega)
    · rw [dollarsAt_two, Bool.and_eq_true]
      exact ⟨isDollar_iff.mpr g0, isDollar_iff.mpr g1⟩
    · rw [dollarsAt_two, Bool.and_eq_true]
      exact ⟨isDollar_iff.mpr g2, isDollar_iff.mpr g3⟩
  case false =>
    have hL : matchLen m = m.expr.length + 2 := by simp [matchLen, hb]
    rw [hL] at hbound hslice
    rw [hb] at hslice
    have hg : ∀ j, j < m.expr.length + 2 →
        s.get? (m.idx + j) = (matchSrc m.expr false).get? j := by
      intro j hj
      rw [← get?_slice hj, hslice]
    have g0 : s.get? m.idx = some '$' := by
      have hh := hg 0 (by omega)
      rw [Nat.add_zero] at hh
      rw [hh]
      rfl
    have g1 : s.get? (m.idx + 1 + m.expr.length) = some '$' := by
      have hh := hg (m.expr.length + 1) (by omega)
      have h2 : (matchSrc m.expr false).get? (m.expr.length + 1) =
          (m.expr ++ ['$']).get? m.expr.length := by
        show ('$' :: (m.expr ++ ['$'])).get? (m.expr.length + 1) = _
        rw [List.get?_cons_succ]
      have h3 : (m.expr ++ ['$']).get? m.expr.length = some '$' := by
        have := get?_append_right' m.expr ['$'] 0
        simpa using this
      rw [h2, h3] at hh
      rw [show m.idx + 1 + m.expr.length = m.idx + (m.expr.length + 1) from by omega]
      exact hh
    apply preFilter_intro m.idx 1 m.expr.length 1 (Or.inl rfl) (Or.inl rfl) hE (by omega)
    · rw [dollarsAt_one]
      exact isDollar_iff.mpr g0
    · rw [dollarsAt_one]
      exact isDollar_iff.mpr g1

end LatexRender

namespace LatexRender

/-- C1: for every text node processed by the extraction/replacement
procedure, the concatenation of the pieces of the constructed fragment — the
literal text pieces plus, for each match, the matched source characters with
delimiters — equals the node's original text: no loss, no duplication. -/
theorem c1_no_loss_no_duplication : ∀ s : List Char, ((fragment s).map pieceSrc).flatten = s := by
  intro s
  have h := fragFrom_src_join (extractMatches s) 0 (chain_extract s)
  rw [List.drop_zero] at h
  exact h

/-- C2: for every match whose typesetting call throws (the oracle returns
`none`), the span emitted for that match carries exactly the original
delimited source text `$$expr$$` or `$expr$`, which equals the matched span
of the original text; the procedure is a total function, so the throw never
propagates, and every other piece of the fragment is built independently. -/
theorem c2_throw_falls_back_to_source : ∀ (ρ : Renderer) (s e : List Char) (b : Bool),
    Piece.math e b ∈ fragment s → ρ e b = none →
    spanContent ρ e b = matchSrc e b ∧
    pieceToDom ρ (Piece.math e b) =
      Dom.elem spanInfo (DomList.cons (Dom.text (matchSrc e b)) DomList.nil) ∧
    ∃ m, m ∈ extractMatches s ∧ m.expr = e ∧ m.isBlock = b ∧
      slice s m.idx (matchLen m) = matchSrc e b := by
  intro ρ s e b hmem hρ
  have h1 : spanContent ρ e b = matchSrc e b := by
    unfold spanContent
    rw [hρ]
  refine ⟨h1, ?_, ?_⟩
  · simp [pieceToDom, h1]
  · rcases fragFrom_math_mem (extractMatches s) 0 hmem with ⟨m, hm, he, hb⟩
    have hok := extract_mem_ok hm
    replace hok : m.expr ≠ [] ∧ m.idx + matchLen m ≤ s.length ∧
        slice s m.idx (matchLen m) = matchSrc m.expr m.isBlock := hok
    exact ⟨m, hm, he, hb, by rw [hok.2.2, he, hb]⟩

theorem c2_witness :
    Piece.math ['a'] false ∈ fragment ['$', 'a', '$'] ∧
    (spanContent (fun _ _ => none : Renderer) ['a'] false = matchSrc ['a'] false ∧
      pieceToDom (fun _ _ => none : Renderer) (Piece.math ['a'] false) =
        Dom.elem spanInfo (DomList.cons (Dom.text (matchSrc ['a'] false)) DomList.nil) ∧
      ∃ m, m ∈ extractMatches ['$', 'a', '$'] ∧ m.expr = ['a'] ∧ m.isBlock = false ∧
        slice ['$', 'a', '$'] m.idx (matchLen m) = matchSrc ['a'] false) :=
  ⟨by decide, c2_throw_falls_back_to_source (fun _ _ => none : Renderer) ['$', 'a', '$']
    ['a'] false (by decide) rfl⟩

/-- C3 counterexample: the text `$$$` yields zero extraction matches yet
passes the fast pre-filter, so the per-node pass does replace the node —
removing it and re-inserting an equivalent text node — contradicting the
claim that a zero-match node is never replaced. -/
theorem c3_counterexample :
    extractMatches ['$', '$', '$'] = [] ∧
      processText ['$', '$', '$'] = some [Piece.lit ['$', '$', '$']] := by
  decide

/-- C3 amended: a text node with zero extraction matches is left untouched
when it fails the fast pre-filter; when it passes the pre-filter it is
nevertheless replaced, by a fragment consisting of a single literal text
node carrying exactly the original content. -/
theorem c3_zero_matches_prefilter_decides : ∀ s : List Char, extractMatches s = [] →
    processText s = if preFilter s = true then some [Piece.lit s] else none := by
  intro s h
  rw [processText]
  by_cases hp : preFilter s = true
  · rw [if_pos hp, if_pos hp]
    have hpos : 0 < s.length := preFilter_pos_length hp
    rw [fragment, h, fragFrom, if_pos (by omega)]
    simp [slice]
  · rw [if_neg hp, if_neg hp]

theorem c3_amended_witness :
    extractMatches ['$', '$', '$'] = [] ∧
      processText ['$', '$', '$'] =
        (if preFilter ['$', '$', '$'] = true then some [Piece.lit ['$', '$', '$']] else none) :=
  ⟨by decide, c3_zero_matches_prefilter_decides ['$', '$', '$'] (by decide)⟩

/-- C6: a text containing exactly one dollar sign (a lone delimiter with no
closing partner) produces no match at all, fails even the fast pre-filter,
and the node is left in place untouched with its literal text preserved. -/
theorem c6_lone_dollar_no_match : ∀ s : List Char, s.count '$' = 1 →
    extractMatches s = [] ∧ processText s = none := by
  intro s h
  have hext : extractMatches s = [] := by
    cases hm : extractMatches s with
    | nil => rfl
    | cons m rest =>
      have hmem : m ∈ extractMatches s := by
        rw [hm]
        exact List.mem_cons_self _ _
      rcases matchOK_two_dollars (extract_mem_ok hmem) with ⟨i, j, hij, hi, hj⟩
      have := count_two_dollars hij hi hj
      omega
  refine ⟨hext, ?_⟩
  have hpf : preFilter s = false := by
    cases hp : preFilter s
    · rfl
    · rcases preFilter_elim hp with ⟨i, j, hij, hi, hj⟩
      have := count_two_dollars hij (isDollar_iff.mp hi) (isDollar_iff.mp hj)
      omega
  rw [processText, if_neg (by simp [hpf])]

theorem c6_witness :
    (['a', '$', 'b'] : List Char).count '$' = 1 ∧
      extractMatches ['a', '$', 'b'] = [] ∧ processText ['a', '$', 'b'] = none :=
  ⟨by decide, c6_lone_dollar_no_match ['a', '$', 'b'] (by decide)⟩

/-- C10: the fast pre-filter is complete with respect to the extractor —
every text on which the extraction regex produces a match passes the
pre-filter test, so the skip never hides a real match — and every captured
expression handed to the typesetting function is nonempty. -/
theorem c10_prefilter_complete : ∀ (s : List Char) (m : MathMatch),
    m ∈ extractMatches s → preFilter s = true ∧ m.expr ≠ [] := by
  intro s m hm
  have hok := extract_mem_ok hm
  refine ⟨preFilter_of_matchOK hok, ?_⟩
  replace hok : m.expr ≠ [] ∧ m.idx + matchLen m ≤ s.length ∧
      slice s m.idx (matchLen m) = matchSrc m.expr m.isBlock := hok
  exact hok.1

theorem c10_witness :
    (⟨0, ['a'], false⟩ : MathMatch) ∈ extractMatches ['$', 'a', '$'] ∧
      preFilter ['$', 'a', '$'] = true ∧ (⟨0, ['a'], false⟩ : MathMatch).expr ≠ [] :=
  ⟨by decide, c10_prefilter_complete ['$', 'a', '$'] ⟨0, ['a'], false⟩ (by decide)⟩

end LatexRender

namespace LatexRender

theorem get?_ne_dollar_of_not_mem {l : List Char} {j : Nat} (h : '$' ∉ l) :
    l.get? j ≠ some '$' := by
  cases hc : l.get? j with
  | none => simp
  | some c =>
    have hcm : c ∈ l := List.get?_mem hc
    have hcne : c ≠ '$' := fun hcc => h (hcc ▸ hcm)
    simp [hcne]

theorem matchesFromAux_succ_some {s : List Char} {fuel i : Nat} {m : MathMatch}
    (h : findFrom s i = some m) :
    matchesFromAux s (fuel + 1) i = m :: matchesFromAux s fuel (m.idx + matchLen m) := by
  rw [matchesFromAux, h]

theorem matchesFromAux_succ_none {s : List Char} {fuel i : Nat} (h : findFrom s i = none) :
    matchesFromAux s (fuel + 1) i = [] := by
  rw [matchesFromAux, h]

theorem dd_get (x : List Char) (j : Nat) :
    ('$' :: '$' :: (x ++ ['$', '$']) : List Char).get? (2 + j) = (x ++ ['$', '$']).get? j := by
  rw [show 2 + j = j + 1 + 1 from by omega]
  rw [List.get?_cons_succ, List.get?_cons_succ]

theorem extract_dd_block (x : List Char) (hne : x ≠ []) (hnd : '$' ∉ x) :
    extractMatches ('$' :: '$' :: (x ++ ['$', '$'])) = [⟨0, x, true⟩] := by
  have hX : 1 ≤ x.length := List.length_pos.mpr hne
  have hlen : ('$' :: '$' :: (x ++ ['$', '$']) : List Char).length = x.length + 4 := by
    simp
  have hxj : ∀ j, j < x.length →
      isDollar ('$' :: '$' :: (x ++ ['$', '$'])) (2 + j) = false := by
    intro j hj
    rw [isDollar_false_iff, dd_get, List.get?_append hj]
    exact get?_ne_dollar_of_not_mem hnd
  have hcd1 : ('$' :: '$' :: (x ++ ['$', '$']) : List Char).get? (2 + x.length) = some '$' := by
    rw [dd_get]
    have h := get?_append_right' x ['$', '$'] 0
    simpa using h
  have hcd2 : ('$' :: '$' :: (x ++ ['$', '$']) : List Char).get? (2 + x.length + 1) =
      some '$' := by
    rw [show 2 + x.length + 1 = 2 + (x.length + 1) from by omega, dd_get]
    have h := get?_append_right' x ['$', '$'] 1
    simpa using h
  have hdollars0 : dollarsAt ('$' :: '$' :: (x ++ ['$', '$'])) 0 2 = true := by
    rw [dollarsAt_two, Bool.and_eq_true]
    exact ⟨isDollar_iff.mpr rfl, isDollar_iff.mpr rfl⟩
  have hseek : seekDD ('$' :: '$' :: (x ++ ['$', '$']))
      ('$' :: '$' :: (x ++ ['$', '$']) : List Char).length 3 = some (2 + x.length) := by
    apply seekDD_eq_some (by omega) (by omega)
    · rw [dollarsAt_two, Bool.and_eq_true]
      exact ⟨isDollar_iff.mpr hcd1, isDollar_iff.mpr hcd2⟩
    · intro j hj1 hj2
      apply dollarsAt_two_false_left
      rw [show j = 2 + (j - 2) from by omega]
      exact hxj (j - 2) (by omega)
  have htb : tryBlock ('$' :: '$' :: (x ++ ['$', '$'])) 0 = some x := by
    rw [tryBlock, if_pos hdollars0, hseek]
    show some (slice ('$' :: '$' :: (x ++ ['$', '$'])) (0 + 2) (2 + x.length - (0 + 2))) =
      some x
    congr 1
    rw [show (0 : Nat) + 2 = 2 from rfl, show 2 + x.length - 2 = x.length from by omega]
    show (('$' :: '$' :: (x ++ ['$', '$']) : List Char).drop 2).take x.length = x
    rw [show ('$' :: '$' :: (x ++ ['$', '$']) : List Char).drop 2 = x ++ ['$', '$'] from rfl]
    exact List.take_left x ['$', '$']
  have hfind0 : findFrom ('$' :: '$' :: (x ++ ['$', '$'])) 0 = some ⟨0, x, true⟩ :=
    findFrom_eq_block htb
  have hnext : findFrom ('$' :: '$' :: (x ++ ['$', '$'])) (x.length + 4) = none :=
    findFrom_none_of_ge (by omega)
  rw [extractMatches, matchesFromAux_succ_some hfind0]
  rw [show (⟨0, x, true⟩ : MathMatch).idx + matchLen ⟨0, x, true⟩ = x.length + 4 from by
    simp [matchLen]]
  rw [show ('$' :: '$' :: (x ++ ['$', '$']) : List Char).length = (x.length + 3) + 1 from by
    rw [hlen]]
  rw [matchesFromAux_succ_none hnext]

/-- C4: the block alternative takes precedence — whenever the double-dollar
form matches at the current scan position, the produced match is that block
match — and in particular a text of shape `$$x$$` with `x` nonempty and
dollar-free is extracted as exactly one block match, never as a literal `$`
followed by an inline match and a trailing `$`. -/
theorem c4_block_precedence :
    (∀ (s : List Char) (i : Nat) (b : List Char), tryBlock s i = some b →
      findFrom s i = some ⟨i, b, true⟩) ∧
    (∀ x : List Char, x ≠ [] → '$' ∉ x →
      extractMatches ('$' :: '$' :: (x ++ ['$', '$'])) = [⟨0, x, true⟩]) :=
  ⟨fun _ _ _ hb => findFrom_eq_block hb, extract_dd_block⟩

theorem c4_witness :
    tryBlock ['$', '$', 'a', '$', '$'] 0 = some ['a'] ∧
    findFrom ['$', '$', 'a', '$', '$'] 0 = some ⟨0, ['a'], true⟩ ∧
    extractMatches ('$' :: '$' :: (['a'] ++ ['$', '$'])) = [⟨0, ['a'], true⟩] :=
  ⟨by decide, c4_block_precedence.1 ['$', '$', 'a', '$', '$'] 0 ['a'] (by decide),
    c4_block_precedence.2 ['a'] (by decide) (by decide)⟩

end LatexRender

namespace LatexRender

theorem fragFrom_single {s : List Char} {m : MathMatch} :
    fragFrom s 0 [m] =
      (if 0 < m.idx then [Piece.lit (slice s 0 m.idx)] else []) ++
        Piece.math m.expr m.isBlock ::
          (if m.idx + matchLen m < s.length then
            [Piece.lit (slice s (m.idx + matchLen m) (s.length - (m.idx + matchLen m)))]
          else []) := by
  rw [fragFrom, fragFrom]
  rw [show m.idx - 0 = m.idx from by omega]

theorem extract_inline_general (p e suf : List Char) (hne : e ≠ []) (hde : '$' ∉ e)
    (hdp : '$' ∉ p) (hds : '$' ∉ suf) :
    extractMatches (p ++ '$' :: (e ++ '$' :: suf)) = [⟨p.length, e, false⟩] ∧
    fragment (p ++ '$' :: (e ++ '$' :: suf)) =
      (if p = [] then [] else [Piece.lit p]) ++
        Piece.math e false :: (if suf = [] then [] else [Piece.lit suf]) := by
  have hE : 1 ≤ e.length := List.length_pos.mpr hne
  have hlen : (p ++ '$' :: (e ++ '$' :: suf)).length =
      p.length + e.length + suf.length + 2 := by
    simp
    omega
  have hd1 : ∀ j, j < p.length → isDollar (p ++ '$' :: (e ++ '$' :: suf)) j = false := by
    intro j hj
    rw [isDollar_false_iff, List.get?_append hj]
    exact get?_ne_dollar_of_not_mem hdp
  have hd2 : isDollar (p ++ '$' :: (e ++ '$' :: suf)) p.length = true := by
    rw [isDollar_iff]
    have h := get?_append_right' p ('$' :: (e ++ '$' :: suf)) 0
    simpa using h
  have hd3 : ∀ j, j < e.length →
      isDollar (p ++ '$' :: (e ++ '$' :: suf)) (p.length + 1 + j) = false := by
    intro j hj
    rw [isDollar_false_iff]
    rw [show p ++ '$' :: (e ++ '$' :: suf) = (p ++ ['$']) ++ (e ++ '$' :: suf) from by simp]
    rw [show p.length + 1 + j = (p ++ ['$']).length + j from by simp]
    rw [get?_append_right', List.get?_append hj]
    exact get?_ne_dollar_of_not_mem hde
  have hd4 : isDollar (p ++ '$' :: (e ++ '$' :: suf)) (p.length + 1 + e.length) = true := by
    rw [isDollar_iff]
    rw [show p ++ '$' :: (e ++ '$' :: suf) = (p ++ ['$']) ++ (e ++ '$' :: suf) from by simp]
    rw [show p.length + 1 + e.length = (p ++ ['$']).length + e.length from by simp]
    rw [get?_append_right']
    have h := get?_append_right' e ('$' :: suf) 0
    simpa using h
  have hd5 : ∀ j, p.length + e.length + 2 ≤ j →
      isDollar (p ++ '$' :: (e ++ '$' :: suf)) j = false := by
    intro j hj
    rw [isDollar_false_iff]
    rw [show p ++ '$' :: (e ++ '$' :: suf) = ((p ++ ['$']) ++ (e ++ ['$'])) ++ suf from by
      simp]
    rw [show j = ((p ++ ['$']) ++ (e ++ ['$'])).length + (j - (p.length + e.length + 2)) from by
      simp
      omega]
    rw [get?_append_right']
    exact get?_ne_dollar_of_not_mem hds
  have hfind0 : findFrom (p ++ '$' :: (e ++ '$' :: suf)) 0 =
      findFrom (p ++ '$' :: (e ++ '$' :: suf)) p.length := by
    have h := findFrom_congr p.length 0 (fun j hj1 hj2 => hd1 j (by omega))
    simpa using h
  have htb : tryBlock (p ++ '$' :: (e ++ '$' :: suf)) p.length = none := by
    have hP1 : isDollar (p ++ '$' :: (e ++ '$' :: suf)) (p.length + 1) = false := by
      have h := hd3 0 (by omega)
      simpa using h
    have hda : dollarsAt (p ++ '$' :: (e ++ '$' :: suf)) p.length 2 = false := by
      rw [dollarsAt_two, hP1, Bool.and_false]
    rw [tryBlock, if_neg (by simp [hda])]
  have hseekD : seekD (p ++ '$' :: (e ++ '$' :: suf))
      (p ++ '$' :: (e ++ '$' :: suf)).length (p.length + 1) =
      some (p.length + 1 + e.length) := by
    apply seekD_eq_some (by omega) (by rw [hlen]; omega) hd4
    intro j hj1 hj2
    have h := hd3 (j - (p.length + 1)) (by omega)
    rw [show p.length + 1 + (j - (p.length + 1)) = j from by omega] at h
    exact h
  have hti : tryInline (p ++ '$' :: (e ++ '$' :: suf)) p.length = some e := by
    have hred : tryInline (p ++ '$' :: (e ++ '$' :: suf)) p.length =
        (if p.length + 2 ≤ p.length + 1 + e.length then
          some (slice (p ++ '$' :: (e ++ '$' :: suf)) (p.length + 1)
            ((p.length + 1 + e.length) - (p.length + 1)))
        else none) := by
      rw [tryInline, if_pos hd2, hseekD]
    rw [hred, if_pos (by omega)]
    congr 1
    rw [show (p.length + 1 + e.length) - (p.length + 1) = e.length from by omega]
    show ((p ++ '$' :: (e ++ '$' :: suf)).drop (p.length + 1)).take e.length = e
    rw [show p ++ '$' :: (e ++ '$' :: suf) = (p ++ ['$']) ++ (e ++ '$' :: suf) from by simp]
    rw [show p.length + 1 = (p ++ ['$']).length from by simp]
    rw [List.drop_left]
    exact List.take_left e ('$' :: suf)
  have hfindP : findFrom (p ++ '$' :: (e ++ '$' :: suf)) p.length =
      some ⟨p.length, e, false⟩ := findFrom_eq_inline htb hti
  have hafter : findFrom (p ++ '$' :: (e ++ '$' :: suf)) (p.length + e.length + 2) = none := by
    apply findFrom_none_of_no_dollar
    intro j hj
    exact hd5 j (by omega)
  have hext : extractMatches (p ++ '$' :: (e ++ '$' :: suf)) = [⟨p.length, e, false⟩] := by
    rw [extractMatches, matchesFromAux_succ_some (by rw [hfind0]; exact hfindP)]
    rw [show (⟨p.length, e, false⟩ : MathMatch).idx + matchLen ⟨p.length, e, false⟩ =
      p.length + e.length + 2 from by simp [matchLen]; omega]
    rw [show (p ++ '$' :: (e ++ '$' :: suf)).length =
      (p.length + e.length + suf.length + 1) + 1 from by rw [hlen]]
    rw [matchesFromAux_succ_none hafter]
  refine ⟨hext, ?_⟩
  rw [fragment, hext, fragFrom_single]
  have hidx : (⟨p.length, e, false⟩ : MathMatch).idx = p.length := rfl
  have hml : (⟨p.length, e, false⟩ : MathMatch).idx + matchLen ⟨p.length, e, false⟩ =
      p.length + e.length + 2 := by
    simp [matchLen]
    omega
  rw [hidx, hml, hlen]
  have hpre : (if 0 < p.length then
      [Piece.lit (slice (p ++ '$' :: (e ++ '$' :: suf)) 0 p.length)] else []) =
      (if p = [] then [] else [Piece.lit p]) := by
    by_cases hp : p = []
    · subst hp
      simp
    · rw [if_pos (List.length_pos.mpr hp), if_neg hp]
      congr 2
      show ((p ++ '$' :: (e ++ '$' :: suf)).drop 0).take p.length = p
      rw [List.drop_zero]
      exact List.take_left p ('$' :: (e ++ '$' :: suf))
  have hsuf : (if p.length + e.length + 2 < p.length + e.length + suf.length + 2 then
      [Piece.lit (slice (p ++ '$' :: (e ++ '$' :: suf)) (p.length + e.length + 2)
        (p.length + e.length + suf.length + 2 - (p.length + e.length + 2)))] else []) =
      (if suf = [] then [] else [Piece.lit suf]) := by
    by_cases hs : suf = []
    · subst hs
      rw [if_neg (by simp), if_pos rfl]
    · have hspos : 0 < suf.length := List.length_pos.mpr hs
      rw [if_pos (by omega), if_neg hs]
      congr 2
      rw [show p.length + e.length + suf.length + 2 - (p.length + e.length + 2) =
        suf.length from by omega]
      show ((p ++ '$' :: (e ++ '$' :: suf)).drop (p.length + e.length + 2)).take suf.length =
        suf
      rw [show p ++ '$' :: (e ++ '$' :: suf) = ((p ++ ['$']) ++ (e ++ ['$'])) ++ suf from by
        simp]
      rw [show p.length + e.length + 2 = ((p ++ ['$']) ++ (e ++ ['$'])).length from by
        simp
        omega]
      rw [List.drop_left]
      exact List.take_length suf
  rw [hpre, hsuf]

/-- C5: matches are produced in left-to-right order with the mode decided by
the delimiter form — `$$a$$ and $b$` yields exactly the block match `a` then
the inline match `b`, with the literal between them preserved — and every
text of shape `prefix $expr$ suffix` (expr nonempty and dollar-free,
prefix/suffix dollar-free) yields exactly one inline match on `expr`, with
prefix and suffix preserved as literal pieces in order. -/
theorem c5_order_and_modes :
    (extractMatches ['$', '$', 'a', '$', '$', ' ', 'a', 'n', 'd', ' ', '$', 'b', '$'] =
        [⟨0, ['a'], true⟩, ⟨10, ['b'], false⟩] ∧
      fragment ['$', '$', 'a', '$', '$', ' ', 'a', 'n', 'd', ' ', '$', 'b', '$'] =
        [Piece.math ['a'] true, Piece.lit [' ', 'a', 'n', 'd', ' '],
          Piece.math ['b'] false]) ∧
    (∀ p e suf : List Char, e ≠ [] → '$' ∉ e → '$' ∉ p → '$' ∉ suf →
      extractMatches (p ++ '$' :: (e ++ '$' :: suf)) = [⟨p.length, e, false⟩] ∧
      fragment (p ++ '$' :: (e ++ '$' :: suf)) =
        (if p = [] then [] else [Piece.lit p]) ++
          Piece.math e false :: (if suf = [] then [] else [Piece.lit suf])) :=
  ⟨by decide, extract_inline_general⟩

theorem c5_witness :
    extractMatches (['u'] ++ '$' :: (['v'] ++ '$' :: ['w'])) = [⟨1, ['v'], false⟩] ∧
    fragment (['u'] ++ '$' :: (['v'] ++ '$' :: ['w'])) =
      (if (['u'] : List Char) = [] then [] else [Piece.lit ['u']]) ++
        Piece.math ['v'] false ::
          (if (['w'] : List Char) = [] then [] else [Piece.lit ['w']]) :=
  c5_order_and_modes.2 ['u'] ['v'] ['w'] (by decide) (by decide) (by decide) (by decide)

end LatexRender

namespace LatexRender

mutual
theorem renderNode_ignored (ρ : Renderer) : ∀ d : Dom,
    renderNode ρ true d = DomList.cons d DomList.nil
  | Dom.text t => by simp [renderNode]
  | Dom.elem e cs => by
    simp [renderNode, Bool.true_or, renderChildren_ignored ρ cs]
theorem renderChildren_ignored (ρ : Renderer) : ∀ cs : DomList,
    renderChildren ρ true cs = cs
  | DomList.nil => by simp [renderChildren]
  | DomList.cons c rest => by
    simp [renderChildren, renderNode_ignored ρ c, renderChildren_ignored ρ rest,
      DomList.append]
end

/-- C7: any node lying under an element that satisfies the ignore predicate —
because it carries the editor marker class, has `contenteditable="true"`, or
is a `SCRIPT`/`STYLE` element — or under any already-ignored ancestor chain,
is never altered by the scan, regardless of its text content: the whole
subtree rooted at such an element is returned unchanged. -/
theorem c7_ignored_subtree_unaltered : ∀ (ρ : Renderer) (ign : Bool) (e : ElemInfo)
    (cs : DomList), ign = true ∨ shouldIgnoreElem e = true →
    renderNode ρ ign (Dom.elem e cs) = DomList.cons (Dom.elem e cs) DomList.nil := by
  intro ρ ign e cs h
  have hor : (ign || shouldIgnoreElem e) = true := by
    rcases h with h | h <;> simp [h]
  simp only [renderNode]
  rw [hor, renderChildren_ignored]

theorem c7_witness :
    renderNode (fun _ _ => none : Renderer) false
        (Dom.elem ⟨['S', 'C', 'R', 'I', 'P', 'T'], [], none⟩
          (DomList.cons (Dom.text ['$', 'a', '$']) DomList.nil)) =
      DomList.cons
        (Dom.elem ⟨['S', 'C', 'R', 'I', 'P', 'T'], [], none⟩
          (DomList.cons (Dom.text ['$', 'a', '$']) DomList.nil)) DomList.nil :=
  c7_ignored_subtree_unaltered (fun _ _ => none : Renderer) false
    ⟨['S', 'C', 'R', 'I', 'P', 'T'], [], none⟩
    (DomList.cons (Dom.text ['$', 'a', '$']) DomList.nil) (Or.inr (by decide))

/-- C8: the mutation handler runs the scan procedure rooted at an added node
exactly when that node is an element — a bare inserted text node is returned
unprocessed whatever its content — batches are handled by mapping in order,
and an inserted element containing `$$x^2$$` gets its expression typeset
in place. -/
theorem c8_element_only_rescan : ∀ (ρ : Renderer) (ign : Bool),
    (∀ t : List Char,
      processAdded ρ ign (Dom.text t) = DomList.cons (Dom.text t) DomList.nil) ∧
    (∀ (e : ElemInfo) (cs : DomList),
      processAdded ρ ign (Dom.elem e cs) = renderNode ρ ign (Dom.elem e cs)) ∧
    (∀ (muts : List (List Dom)) (j : Nat),
      (handleMutations ρ ign muts).get? j =
        Option.map (fun batch => batch.map (processAdded ρ ign)) (muts.get? j)) ∧
    (∀ h : List Char, ρ ['x', '^', '2'] true = some h →
      processAdded ρ false
          (Dom.elem ⟨['D', 'I', 'V'], [], none⟩
            (DomList.cons (Dom.text ['$', '$', 'x', '^', '2', '$', '$']) DomList.nil)) =
        DomList.cons
          (Dom.elem ⟨['D', 'I', 'V'], [], none⟩
            (DomList.cons
              (Dom.elem spanInfo (DomList.cons (Dom.text h) DomList.nil)) DomList.nil))
          DomList.nil) := by
  intro ρ ign
  refine ⟨fun t => rfl, fun e cs => rfl, ?_, ?_⟩
  · intro muts j
    rw [handleMutations]
    exact List.get?_map _ _ _
  · intro h hρ
    have hpt : processText ['$', '$', 'x', '^', '2', '$', '$'] =
        some [Piece.math ['x', '^', '2'] true] := by decide
    have hsi : shouldIgnoreElem ⟨['D', 'I', 'V'], [], none⟩ = false := by decide
    simp [processAdded, renderNode, renderChildren, hsi, hpt, piecesToDomList, pieceToDom,
      spanContent, hρ, DomList.append]
    rw [show slice ['$', '$', 'x', '^', '2', '$', '$'] 2 3 = ['x', '^', '2'] from by decide,
      hρ]

theorem c8_witness :
    processAdded (fun _ _ => some ['H'] : Renderer) false
        (Dom.elem ⟨['D', 'I', 'V'], [], none⟩
          (DomList.cons (Dom.text ['$', '$', 'x', '^', '2', '$', '$']) DomList.nil)) =
      DomList.cons
        (Dom.elem ⟨['D', 'I', 'V'], [], none⟩
          (DomList.cons (Dom.elem spanInfo (DomList.cons (Dom.text ['H']) DomList.nil))
            DomList.nil)) DomList.nil :=
  (c8_element_only_rescan (fun _ _ => some ['H'] : Renderer) false).2.2.2 ['H'] rfl

/-- C9: a collected target whose parent is absent at replacement time gets
the no-op action — nothing is mutated for it and, the loop being a total
function, no exception propagates — while every other target's action is
computed from that target alone, so no other node's processing is
affected. -/
theorem c9_detached_parent_noop : ∀ (ρ : Renderer) (ts : List TargetNode) (i : Nat)
    (t : TargetNode), ts.get? i = some t → t.attached = false →
    (replaceLoop ρ ts).get? i = some NodeAction.skipped ∧
    ∀ (j : Nat) (u : TargetNode), ts.get? j = some u →
      (replaceLoop ρ ts).get? j = some (replaceAction ρ u) := by
  intro ρ ts i t hget hatt
  constructor
  · rw [replaceLoop, List.get?_map, hget]
    simp [replaceAction, hatt]
  · intro j u hj
    rw [replaceLoop, List.get?_map, hj]
    rfl

theorem c9_witness :
    (replaceLoop (fun _ _ => none : Renderer) [⟨['a'], false⟩]).get? 0 =
        some NodeAction.skipped ∧
      ∀ (j : Nat) (u : TargetNode), ([(⟨['a'], false⟩ : TargetNode)] : List TargetNode).get? j = some u →
        (replaceLoop (fun _ _ => none : Renderer) [⟨['a'], false⟩]).get? j =
          some (replaceAction (fun _ _ => none : Renderer) u) :=
  c9_detached_parent_noop (fun _ _ => none : Renderer) [⟨['a'], false⟩] 0
    ⟨['a'], false⟩ rfl rfl

end LatexRender
